import Mathlib

/-!
Shallow embedding of `src/lib/hashtables.ts`: a chaining hash table and a
linear-probing hash table with tombstone deletion.

Modelling conventions:
* TypeScript arrays are Lean lists; `arr[i]` becomes `List.getD i d` where
  `d` is the value JavaScript yields for an out-of-range read (`undefined`,
  i.e. the corresponding "absent" element of the model); `arr[i] = x`
  becomes `List.set i x`.
* The probing table's key slots (`K | null | undefined`) become an explicit
  `Slot` type: `undefined` (never used) is `Slot.empty`, `null` (deleted)
  is `Slot.tomb`, a stored key is `Slot.occ`.
* `V | undefined` values and results become `Option V`.
* JavaScript's `%` on integers is the truncated remainder `Int.tmod`.
* In-place mutation becomes returning the updated table next to the
  original return value.
-/

namespace Hashtables

/-- `HashFunction<K> = (key: K) => number`. -/
def HashFunction (K : Type) : Type := K → Int

/-- `hash_id`: the identity function as an auxiliary hash function. -/
def hash_id : HashFunction Int := fun key => key

/-- A slot of the probing table's key array (`K | null | undefined`):
`undefined` (never used) is `empty`, `null` (deleted) is `tomb`. -/
inductive Slot (K : Type) where
  | empty
  | tomb
  | occ (k : K)
deriving DecidableEq

/-- `ChainingHashtable<K, V>`: an array of chains and the hash function. -/
structure ChainingHashtable (K V : Type) where
  arr : List (List (K × V))
  hash : HashFunction K

/-- `ch_empty(size, hash)`: `size` chains, all `null` (empty lists). -/
def ch_empty {K V : Type} (size : Nat) (hash : HashFunction K) :
    ChainingHashtable K V :=
  ⟨List.replicate size [], hash⟩

/-- `scan(xs, key)`: first association for `key`, or `undefined` (`none`). -/
def scan {K V : Type} [DecidableEq K] : List (K × V) → K → Option V
  | [], _ => none
  | kv :: rest, key => if key = kv.1 then some kv.2 else scan rest key

/-- `mod(nmb, modulus) = (nmb % modulus + modulus) % modulus` with
JavaScript's truncated `%` (`Int.tmod`). -/
def mod (nmb modulus : Int) : Int :=
  (Int.tmod nmb modulus + modulus).tmod modulus

/-- The bucket index `mod(hash(key), arr.length)` computed by every
chaining-table operation.  The result of `mod` is non-negative whenever
`arr.length > 0`, so `Int.toNat` is the faithful conversion to a list
index. -/
def chIndex {K V : Type} (t : ChainingHashtable K V) (key : K) : Nat :=
  (mod (t.hash key) (t.arr.length : Int)).toNat

/-- `ch_lookup({arr, hash}, key) = scan(arr[mod(hash(key), arr.length)], key)`. -/
def ch_lookup {K V : Type} [DecidableEq K] (t : ChainingHashtable K V) (key : K) :
    Option V :=
  scan (t.arr.getD (chIndex t key) []) key

/-- `ch_insert`: prepend a new pair (returning `false`) or rebuild the
bucket with the matching pair's value replaced (returning `true`). -/
def ch_insert {K V : Type} [DecidableEq K] (t : ChainingHashtable K V)
    (key : K) (value : V) : ChainingHashtable K V × Bool :=
  let index := chIndex t key
  let bucket := t.arr.getD index []
  match scan bucket key with
  | none =>
    (⟨t.arr.set index ((key, value) :: bucket), t.hash⟩, false)
  | some _ =>
    (⟨t.arr.set index (bucket.map fun kv => if key = kv.1 then (key, value) else kv),
      t.hash⟩, true)

/-- `ch_delete`: rebuild the bucket with the matching pair filtered out;
returns whether the key existed. -/
def ch_delete {K V : Type} [DecidableEq K] (t : ChainingHashtable K V) (key : K) :
    ChainingHashtable K V × Bool :=
  let index := chIndex t key
  let bucket := t.arr.getD index []
  match scan bucket key with
  | none => (t, false)
  | some _ =>
    (⟨t.arr.set index (bucket.filter fun kv => decide (kv.1 ≠ key)), t.hash⟩, true)

/-- The list library's `build_list(f, n) = [f 0, …, f (n-1)]` (an external
collaborator of the core, embedded as a Lean list builder). -/
def build_list {A : Type} (f : Nat → A) (n : Nat) : List A :=
  (List.range n).map f

/-- `ch_keys(tab) = map(head, flatten(build_list(i => tab.arr[i], tab.arr.length)))`. -/
def ch_keys {K V : Type} (t : ChainingHashtable K V) : List K :=
  ((build_list (fun i => t.arr.getD i []) t.arr.length).flatten).map Prod.fst

/-- `ProbingHashtable<K, V>`: parallel key/value arrays, the hash function
and the number of elements (`entries`, a JavaScript number, hence `Int`). -/
structure ProbingHashtable (K V : Type) where
  keys : List (Slot K)
  values : List (Option V)
  hash : HashFunction K
  entries : Int

/-- `ph_empty(size, hash_function)`: all slots `undefined`, zero entries. -/
def ph_empty {K V : Type} (size : Nat) (hash_function : HashFunction K) :
    ProbingHashtable K V :=
  ⟨List.replicate size Slot.empty, List.replicate size none, hash_function, 0⟩

/-- The three early-return tests of the probe loop body, collapsed into one
slot test: `keys[idx] === key`, `keys[idx] === undefined`, and
`!skip_null && keys[idx] === null` all return the current index. -/
def isStop {K : Type} [DecidableEq K] (skip_null : Bool) (key : K) : Slot K → Bool
  | Slot.occ k2 => decide (k2 = key)
  | Slot.empty => true
  | Slot.tomb => !skip_null

/-- The slot index examined at iteration `j` of the probe loop:
`(hash + j) % keys.length` with JavaScript's truncated `%`.  For a
non-negative `hash` this is the ordinary non-negative remainder; a negative
`hash` is outside the specification (spec §9). -/
def probeIdx {K : Type} (keys : List (Slot K)) (hash : Int) (j : Nat) : Nat :=
  ((hash + (j : Int)).tmod (keys.length : Int)).toNat

/-- The probe `for` loop: `i` is the loop counter, `fuel` the number of
remaining iterations (the source runs the body `keys.length` times starting
from `i = 0`). -/
def probeGo {K : Type} [DecidableEq K] (keys : List (Slot K)) (key : K)
    (hash : Int) (skip_null : Bool) : Nat → Nat → Option Nat
  | _, 0 => none
  | i, fuel + 1 =>
    if isStop skip_null key (keys.getD (probeIdx keys hash i) Slot.empty) then
      some (probeIdx keys hash i)
    else probeGo keys key hash skip_null (i + 1) fuel

/-- `probe(keys, key, hash, skip_null)`: scan up to `keys.length` slots
starting at `hash`, returning the first index whose slot matches the key,
is `undefined`, or (when `skip_null` is false) is `null`. -/
def probe {K : Type} [DecidableEq K] (keys : List (Slot K)) (key : K)
    (hash : Int) (skip_null : Bool) : Option Nat :=
  probeGo keys key hash skip_null 0 keys.length

/-- `ph_lookup(ht, key)`: probe with `skip null`; absent probe gives
`undefined`, otherwise the parallel value slot. -/
def ph_lookup {K V : Type} [DecidableEq K] (ht : ProbingHashtable K V) (key : K) :
    Option V :=
  match probe ht.keys key (ht.hash key) true with
  | none => none
  | some idx => ht.values.getD idx none

/-- The index-resolution step of `ph_insert`: if the first probe stopped at
a `null` slot, re-probe from there with `skip null` and, when that probe
returns an index, use it instead. -/
def phResolve {K V : Type} [DecidableEq K] (ht : ProbingHashtable K V)
    (key : K) (idx0 : Nat) : Nat :=
  if ht.keys.getD idx0 Slot.empty = Slot.tomb then
    match probe ht.keys key (idx0 : Int) true with
    | some key_idx => key_idx
    | none => idx0
  else idx0

/-- The write step of `ph_insert` at the resolved index: bump `entries`
for a new key unless the table is full, then store the pair. -/
def phInsertAt {K V : Type} [DecidableEq K] (ht : ProbingHashtable K V)
    (key : K) (value : V) (idx : Nat) : ProbingHashtable K V × Bool :=
  if ht.keys.getD idx Slot.empty ≠ Slot.occ key then
    if ht.entries = (ht.keys.length : Int) then (ht, false)
    else
      (⟨ht.keys.set idx (Slot.occ key), ht.values.set idx (some value),
        ht.hash, ht.entries + 1⟩, true)
  else
    (⟨ht.keys.set idx (Slot.occ key), ht.values.set idx (some value),
      ht.hash, ht.entries⟩, true)

/-- `ph_insert(ht, key, value)`: probe without skipping `null`, resolve a
`null` stop by the confirmation re-probe, then write; `false` when the
table is full. -/
def ph_insert {K V : Type} [DecidableEq K] (ht : ProbingHashtable K V)
    (key : K) (value : V) : ProbingHashtable K V × Bool :=
  match probe ht.keys key (ht.hash key) false with
  | none => (ht, false)
  | some idx0 => phInsertAt ht key value (phResolve ht key idx0)

/-- `ph_delete(ht, key)`: probe with `skip null`; on a hit, capture the
value, tombstone the key slot, clear the value slot and decrement
`entries`. -/
def ph_delete {K V : Type} [DecidableEq K] (ht : ProbingHashtable K V)
    (key : K) : ProbingHashtable K V × Option V :=
  match probe ht.keys key (ht.hash key) true with
  | none => (ht, none)
  | some idx =>
    if ht.keys.getD idx Slot.empty = Slot.empty then (ht, none)
    else
      (⟨ht.keys.set idx Slot.tomb, ht.values.set idx none,
        ht.hash, ht.entries - 1⟩, ht.values.getD idx none)

/-- `filterNulls(xs)`: drop `undefined` and `null` entries, keep the keys. -/
def filterNulls {K : Type} : List (Slot K) → List K
  | [] => []
  | Slot.occ k :: rest => k :: filterNulls rest
  | Slot.empty :: rest => filterNulls rest
  | Slot.tomb :: rest => filterNulls rest

/-- `ph_keys(tab) = filterNulls(build_list(i => tab.keys[i], tab.keys.length))`. -/
def ph_keys {K V : Type} (tab : ProbingHashtable K V) : List K :=
  filterNulls (build_list (fun i => tab.keys.getD i Slot.empty) tab.keys.length)

/-- The index examined at step `j` of a probe starting at (non-negative
normalised) position `s` in a table of `len` slots. -/
def pstep (s len j : Nat) : Nat := (s + j) % len

/-- Does a slot hold a key (neither `Empty` nor `Tombstone`)? -/
def occP {K : Type} : Slot K → Bool
  | Slot.occ _ => true
  | _ => false

/-- Number of slots holding a key. -/
def occCount {K : Type} (keys : List (Slot K)) : Nat :=
  keys.countP occP

/-- Number of slots holding the particular key `k`. -/
def keyCount {K : Type} [DecidableEq K] (keys : List (Slot K)) (k : K) : Nat :=
  keys.countP (fun s => decide (s = Slot.occ k))

/-- Probe-reachability: whenever a key occupies the slot at step `i` of its
own probe sequence, no earlier step of that sequence is an `Empty` slot
(so lookups and inserts scanning from the key's hash cannot terminate
before reaching it). -/
def ReachInv {K V : Type} (ht : ProbingHashtable K V) : Prop :=
  ∀ (k : K) (i j : Nat), i < ht.keys.length → j < i →
    ht.keys.getD (pstep (ht.hash k).toNat ht.keys.length i) Slot.empty = Slot.occ k →
    ht.keys.getD (pstep (ht.hash k).toNat ht.keys.length j) Slot.empty ≠ Slot.empty

/-- Well-formedness of a probing table: parallel arrays of equal length,
`entries` counts the occupied slots, no key occupies two slots, and every
occupied key is probe-reachable. -/
structure Wf {K V : Type} [DecidableEq K] (ht : ProbingHashtable K V) : Prop where
  lenv : ht.values.length = ht.keys.length
  ecount : ht.entries = (occCount ht.keys : Int)
  dup : ∀ k : K, keyCount ht.keys k ≤ 1
  reach : ReachInv ht

/-- Tables reachable from `ph_empty` by inserts and deletes. -/
inductive Reachable {K V : Type} [DecidableEq K] : ProbingHashtable K V → Prop where
  | empty (size : Nat) (hash_function : HashFunction K) :
      Reachable (ph_empty size hash_function)
  | insert (ht : ProbingHashtable K V) (key : K) (value : V) :
      Reachable ht → Reachable (ph_insert ht key value).1
  | delete (ht : ProbingHashtable K V) (key : K) :
      Reachable ht → Reachable (ph_delete ht key).1

/-- Insert a list of pairs left to right; the flag records whether every
single insert reported success. -/
def insertAll {K V : Type} [DecidableEq K] (ht : ProbingHashtable K V) :
    List (K × V) → ProbingHashtable K V × Bool
  | [] => (ht, true)
  | p :: rest =>
    let r := ph_insert ht p.1 p.2
    let s := insertAll r.1 rest
    (s.1, r.2 && s.2)

/-! ### Concrete tables used in the example theorems -/

/-- Capacity-3 probing table after `insert 0`, `insert 3`, `delete 0`
(identity hash): keys are `[Tombstone, occ 3, Empty]`. -/
def exTombEmptyTable : ProbingHashtable Int Nat :=
  (ph_delete ((ph_insert ((ph_insert (ph_empty 3 hash_id) 0 10).1) 3 11).1) 0).1

/-- Capacity-2 probing table after `insert 0`, `delete 0` (identity hash):
keys are `[Tombstone, Empty]`. -/
def exTombOnlyTable : ProbingHashtable Int Nat :=
  (ph_delete ((ph_insert (ph_empty 2 hash_id) 0 5).1) 0).1

/-- Capacity-2 probing table holding only key `0` (identity hash). -/
def exOneKeyTable : ProbingHashtable Int Nat :=
  (ph_insert (ph_empty 2 hash_id) 0 5).1

/-- Capacity-3 probing table reached by `insert 0`, `insert 1`, `delete 0`
(non-negative hash). -/
def exReachedTable : ProbingHashtable Nat Nat :=
  (ph_delete ((ph_insert ((ph_insert (ph_empty 3 (fun n : Nat => (n : Int))) 0 1).1) 1 2).1) 0).1

/-- Capacity-1 full probing table holding only key `0`. -/
def exFullOneTable : ProbingHashtable Nat Nat :=
  (ph_insert (ph_empty 1 (fun n : Nat => (n : Int))) 0 5).1

/-- Capacity-4 chaining table holding only key `5` (identity hash). -/
def exChainTable : ChainingHashtable Int Nat :=
  (ch_insert (ch_empty 4 hash_id) 5 1).1

/-! ### List helpers -/

theorem getD_set_self {α : Type} (l : List α) (i : Nat) (a d : α) (h : i < l.length) :
    (l.set i a).getD i d = a := by
  simp [List.getD_eq_getElem?_getD, List.getElem?_set_self h]

theorem getD_set_ne {α : Type} (l : List α) (i j : Nat) (a d : α) (h : i ≠ j) :
    (l.set i a).getD j d = l.getD j d := by
  simp [List.getD_eq_getElem?_getD, List.getElem?_set_ne h]

theorem getD_mem {α : Type} (l : List α) (i : Nat) (d : α) (h : i < l.length) :
    l.getD i d ∈ l := by
  rw [List.getD_eq_getElem?_getD, List.getElem?_eq_getElem h]
  exact List.getElem_mem h

theorem set_getD_self {α : Type} (l : List α) (i : Nat) (a d : α)
    (hd : l.getD i d = a) : l.set i a = l := by
  rcases Nat.lt_or_ge i l.length with h | h
  · have ha : some a = l[i]? := by
      rw [List.getD_eq_getElem?_getD, List.getElem?_eq_getElem h] at hd
      rw [List.getElem?_eq_getElem h]
      simp at hd
      rw [hd]
    apply List.ext_getElem?
    intro j
    rw [List.getElem?_set]
    by_cases hij : i = j
    · subst hij
      rw [if_pos rfl, if_pos h]
      exact ha
    · rw [if_neg hij]
  · exact List.set_eq_of_length_le h

theorem mem_of_mem_set {α : Type} {l : List α} {i : Nat} {a b : α}
    (h : b ∈ l.set i a) : b = a ∨ b ∈ l := by
  induction l generalizing i with
  | nil => simp [List.set] at h
  | cons x xs ih =>
    cases i with
    | zero =>
      rw [List.set_cons_zero] at h
      rcases List.mem_cons.mp h with h | h
      · exact Or.inl h
      · exact Or.inr (List.mem_cons_of_mem x h)
    | succ n =>
      rw [List.set_cons_succ] at h
      rcases List.mem_cons.mp h with h | h
      · exact Or.inr (h ▸ List.mem_cons_self x xs)
      · rcases ih h with h2 | h2
        · exact Or.inl h2
        · exact Or.inr (List.mem_cons_of_mem x h2)

/-! ### JavaScript modulus arithmetic -/

theorem neg_tmod (a b : Int) : (-a).tmod b = -a.tmod b := by
  rw [Int.tmod_def, Int.tmod_def, Int.neg_tdiv]
  ring

theorem tmod_gt_neg (a : Int) {b : Int} (hb : 0 < b) : -b < a.tmod b := by
  rcases le_or_lt 0 a with h | h
  · have := Int.tmod_nonneg b h
    linarith
  · have h1 : (-a).tmod b < b := Int.tmod_lt_of_pos _ hb
    have h2 : (-a).tmod b = -a.tmod b := neg_tmod a b
    linarith

theorem tmod_emod (a b : Int) : a.tmod b % b = a % b := by
  have h : a - b * a.tdiv b = a + b * (-a.tdiv b) := by ring
  rw [Int.tmod_def, h, Int.add_mul_emod_self_left]

/-- The sign-correcting modulus agrees with the mathematical (Euclidean)
remainder for a positive modulus. -/
theorem mod_eq_emod (n m : Int) (hm : 0 < m) : mod n m = n % m := by
  unfold mod
  have h1 : 0 ≤ n.tmod m + m := by
    have := tmod_gt_neg n hm
    linarith
  rw [Int.tmod_eq_emod h1 hm.le,
    show n.tmod m + m = n.tmod m + m * 1 by ring,
    Int.add_mul_emod_self_left, tmod_emod]

theorem mod_nonneg (n m : Int) (hm : 0 < m) : 0 ≤ mod n m := by
  rw [mod_eq_emod n m hm]
  exact Int.emod_nonneg n (ne_of_gt hm)

theorem mod_lt (n m : Int) (hm : 0 < m) : mod n m < m := by
  rw [mod_eq_emod n m hm]
  exact Int.emod_lt_of_pos n hm

/-! ### Probe-step arithmetic -/

theorem probeIdx_eq_pstep {K : Type} (keys : List (Slot K)) (h : Int) (j : Nat)
    (hh : 0 ≤ h) : probeIdx keys h j = pstep h.toNat keys.length j := by
  obtain ⟨a, rfl⟩ : ∃ a : Nat, h = (a : Int) := ⟨h.toNat, (Int.toNat_of_nonneg hh).symm⟩
  unfold probeIdx pstep
  rw [show ((a : Int) + (j : Int)) = ((a + j : Nat) : Int) by push_cast; ring,
    ← Int.ofNat_tmod]
  simp only [Int.toNat_natCast]

theorem probeIdx_lt {K : Type} (keys : List (Slot K)) (h : Int) (j : Nat)
    (hl : 0 < keys.length) : probeIdx keys h j < keys.length := by
  unfold probeIdx
  have h1 : (h + (j : Int)).tmod (keys.length : Int) < (keys.length : Int) :=
    Int.tmod_lt_of_pos _ (by exact_mod_cast hl)
  omega

theorem pstep_lt (s len j : Nat) (hl : 0 < len) : pstep s len j < len :=
  Nat.mod_lt _ hl

theorem pstep_add (s len i j : Nat) :
    pstep (pstep s len i) len j = pstep s len (i + j) := by
  unfold pstep
  rw [Nat.mod_add_mod, Nat.add_assoc]

theorem pstep_inj {s len i j : Nat} (hi : i < len) (hj : j < len)
    (h : pstep s len i = pstep s len j) : i = j := by
  unfold pstep at h
  rcases le_total i j with hle | hle
  · have h2 : i ≡ j [MOD len] := Nat.ModEq.add_left_cancel' s h
    have h3 := (Nat.modEq_iff_dvd' hle).mp h2
    rcases Nat.eq_zero_or_pos (j - i) with h5 | h5
    · omega
    · have := Nat.le_of_dvd h5 h3
      omega
  · have h2 : j ≡ i [MOD len] := Nat.ModEq.add_left_cancel' s h.symm
    have h3 := (Nat.modEq_iff_dvd' hle).mp h2
    rcases Nat.eq_zero_or_pos (i - j) with h5 | h5
    · omega
    · have := Nat.le_of_dvd h5 h3
      omega

theorem pstep_surj (s len p : Nat) (hl : 0 < len) (hp : p < len) :
    ∃ j, j < len ∧ pstep s len j = p := by
  refine ⟨(p + len - s % len) % len, Nat.mod_lt _ hl, ?_⟩
  unfold pstep
  have h1 : s % len < len := Nat.mod_lt _ hl
  conv_lhs => rw [← Nat.mod_add_mod]
  rw [Nat.add_mod_mod, show s % len + (p + len - s % len) = p + len by omega,
    Nat.add_mod_right, Nat.mod_eq_of_lt hp]

/-! ### Probe loop characterisation -/

theorem probeGo_eq_none_iff {K : Type} [DecidableEq K] (keys : List (Slot K))
    (key : K) (hash : Int) (skip : Bool) :
    ∀ (fuel i : Nat), probeGo keys key hash skip i fuel = none ↔
      ∀ t, t < fuel →
        isStop skip key (keys.getD (probeIdx keys hash (i + t)) Slot.empty) = false := by
  intro fuel
  induction fuel with
  | zero => intro i; simp [probeGo]
  | succ n ih =>
    intro i
    rw [probeGo]
    by_cases hstop : isStop skip key (keys.getD (probeIdx keys hash i) Slot.empty) = true
    · simp only [hstop, if_pos]
      constructor
      · intro h; cases h
      · intro h
        have := h 0 (Nat.succ_pos n)
        rw [Nat.add_zero] at this
        rw [this] at hstop
        cases hstop
    · rw [if_neg hstop, ih (i + 1)]
      constructor
      · intro h t ht
        cases t with
        | zero =>
          rw [Nat.add_zero]
          cases hb : isStop skip key (keys.getD (probeIdx keys hash i) Slot.empty)
          · rfl
          · exact absurd hb hstop
        | succ u =>
          have := h u (by omega)
          rw [show i + 1 + u = i + (u + 1) by omega] at this
          exact this
      · intro h t ht
        have := h (t + 1) (by omega)
        rw [show i + (t + 1) = i + 1 + t by omega] at this
        exact this

theorem probeGo_eq_some {K : Type} [DecidableEq K] (keys : List (Slot K))
    (key : K) (hash : Int) (skip : Bool) :
    ∀ (fuel i idx : Nat), probeGo keys key hash skip i fuel = some idx →
      ∃ t, t < fuel ∧ idx = probeIdx keys hash (i + t) ∧
        isStop skip key (keys.getD idx Slot.empty) = true ∧
        ∀ u, u < t →
          isStop skip key (keys.getD (probeIdx keys hash (i + u)) Slot.empty) = false := by
  intro fuel
  induction fuel with
  | zero => intro i idx h; cases h
  | succ n ih =>
    intro i idx h
    rw [probeGo] at h
    by_cases hstop : isStop skip key (keys.getD (probeIdx keys hash i) Slot.empty) = true
    · rw [if_pos hstop] at h
      injection h with h2
      refine ⟨0, Nat.succ_pos n, ?_, ?_, ?_⟩
      · rw [Nat.add_zero, ← h2]
      · rw [← h2]
        exact hstop
      · intro u hu
        omega
    · rw [if_neg hstop] at h
      obtain ⟨t, ht, hidx, hs, hbef⟩ := ih (i + 1) idx h
      refine ⟨t + 1, by omega, ?_, hs, ?_⟩
      · rw [show i + (t + 1) = i + 1 + t by omega]
        exact hidx
      · intro u hu
        cases u with
        | zero =>
          rw [Nat.add_zero]
          cases hb : isStop skip key (keys.getD (probeIdx keys hash i) Slot.empty)
          · rfl
          · exact absurd hb hstop
        | succ w =>
          have := hbef w (by omega)
          rw [show i + 1 + w = i + (w + 1) by omega] at this
          exact this

/-- Forward characterisation of a successful probe (non-negative hash):
the returned index is the first stopping step. -/
theorem probe_eq_some_pstep {K : Type} [DecidableEq K] {keys : List (Slot K)}
    {key : K} {hash : Int} {skip : Bool} {idx : Nat} (hnn : 0 ≤ hash)
    (h : probe keys key hash skip = some idx) :
    ∃ t, t < keys.length ∧ idx = pstep hash.toNat keys.length t ∧
      isStop skip key (keys.getD idx Slot.empty) = true ∧
      ∀ u, u < t →
        isStop skip key (keys.getD (pstep hash.toNat keys.length u) Slot.empty) = false := by
  obtain ⟨t, ht, hidx, hs, hbef⟩ := probeGo_eq_some keys key hash skip keys.length 0 idx h
  refine ⟨t, ht, ?_, hs, ?_⟩
  · rw [hidx, Nat.zero_add, probeIdx_eq_pstep keys hash t hnn]
  · intro u hu
    have := hbef u hu
    rwa [Nat.zero_add, probeIdx_eq_pstep keys hash u hnn] at this

theorem probe_eq_none_iff_pstep {K : Type} [DecidableEq K] {keys : List (Slot K)}
    {key : K} {hash : Int} {skip : Bool} (hnn : 0 ≤ hash) :
    probe keys key hash skip = none ↔
      ∀ t, t < keys.length →
        isStop skip key (keys.getD (pstep hash.toNat keys.length t) Slot.empty) = false := by
  rw [probe, probeGo_eq_none_iff]
  constructor
  · intro h t ht
    have := h t ht
    rwa [Nat.zero_add, probeIdx_eq_pstep keys hash t hnn] at this
  · intro h t ht
    rw [Nat.zero_add, probeIdx_eq_pstep keys hash t hnn]
    exact h t ht

/-- If step `t0` is the first stopping step, the probe returns exactly it. -/
theorem probe_first {K : Type} [DecidableEq K] {keys : List (Slot K)} {key : K}
    {hash : Int} {skip : Bool} {t0 : Nat} (hnn : 0 ≤ hash) (ht0 : t0 < keys.length)
    (hstop : isStop skip key (keys.getD (pstep hash.toNat keys.length t0) Slot.empty) = true)
    (hbef : ∀ u, u < t0 →
      isStop skip key (keys.getD (pstep hash.toNat keys.length u) Slot.empty) = false) :
    probe keys key hash skip = some (pstep hash.toNat keys.length t0) := by
  cases h : probe keys key hash skip with
  | none =>
    have := (probe_eq_none_iff_pstep hnn).mp h t0 ht0
    rw [this] at hstop
    cases hstop
  | some idx =>
    obtain ⟨t, ht, hidx, hs, hbef2⟩ := probe_eq_some_pstep hnn h
    have htt : t = t0 := by
      rcases Nat.lt_trichotomy t t0 with h1 | h1 | h1
      · have := hbef t h1
        rw [hidx] at hs
        rw [this] at hs
        cases hs
      · exact h1
      · have := hbef2 t0 h1
        rw [this] at hstop
        cases hstop
    rw [hidx, htt]

/-- With every in-range slot failing the stop test, the probe fails. -/
theorem probe_eq_none_of_slots {K : Type} [DecidableEq K] (keys : List (Slot K))
    (key : K) (hash : Int) (skip : Bool)
    (h : ∀ idx, idx < keys.length →
      isStop skip key (keys.getD idx Slot.empty) = false) :
    probe keys key hash skip = none := by
  rw [probe, probeGo_eq_none_iff]
  intro t ht
  exact h _ (probeIdx_lt keys hash (0 + t) (by omega))

/-- A failed probe (non-negative hash) means every in-range slot fails the
stop test. -/
theorem slots_of_probe_none {K : Type} [DecidableEq K] {keys : List (Slot K)}
    {key : K} {hash : Int} {skip : Bool} (hnn : 0 ≤ hash)
    (h : probe keys key hash skip = none) :
    ∀ idx, idx < keys.length → isStop skip key (keys.getD idx Slot.empty) = false := by
  intro idx hidx
  obtain ⟨j, hj, hjeq⟩ := pstep_surj hash.toNat keys.length idx (by omega) hidx
  have := (probe_eq_none_iff_pstep hnn).mp h j hj
  rwa [hjeq] at this

/-! ### Slot and stop-test helpers -/

theorem isStop_occ_self {K : Type} [DecidableEq K] (skip : Bool) (key : K) :
    isStop skip key (Slot.occ key) = true := by
  simp [isStop]

theorem isStop_true_eq_true_iff {K : Type} [DecidableEq K] (key : K) (s : Slot K) :
    isStop true key s = true ↔ s = Slot.occ key ∨ s = Slot.empty := by
  cases s <;> simp [isStop]

theorem isStop_true_eq_false_iff {K : Type} [DecidableEq K] (key : K) (s : Slot K) :
    isStop true key s = false ↔ s ≠ Slot.occ key ∧ s ≠ Slot.empty := by
  cases s <;> simp [isStop]

theorem isStop_false_eq_false_iff {K : Type} [DecidableEq K] (key : K) (s : Slot K) :
    isStop false key s = false ↔ ∃ k2, s = Slot.occ k2 ∧ k2 ≠ key := by
  cases s <;> simp [isStop]

theorem exists_getD_of_occ_mem {K : Type} {keys : List (Slot K)} {k : K}
    (h : Slot.occ k ∈ keys) :
    ∃ idx, idx < keys.length ∧ keys.getD idx Slot.empty = Slot.occ k := by
  obtain ⟨n, hn, he⟩ := List.mem_iff_getElem.mp h
  refine ⟨n, hn, ?_⟩
  rw [List.getD_eq_getElem?_getD, List.getElem?_eq_getElem hn]
  simpa using he

theorem occ_mem_of_getD {K : Type} {keys : List (Slot K)} {k : K} {idx : Nat}
    (hidx : idx < keys.length) (h : keys.getD idx Slot.empty = Slot.occ k) :
    Slot.occ k ∈ keys := by
  rw [← h]
  exact getD_mem keys idx Slot.empty hidx

/-! ### Unfolding equations for the probing operations -/

theorem ph_insert_of_probe_none {K V : Type} [DecidableEq K]
    {ht : ProbingHashtable K V} {key : K} (value : V)
    (hp : probe ht.keys key (ht.hash key) false = none) :
    ph_insert ht key value = (ht, false) := by
  unfold ph_insert
  rw [hp]

theorem ph_insert_of_probe_some {K V : Type} [DecidableEq K]
    {ht : ProbingHashtable K V} {key : K} (value : V) {idx0 : Nat}
    (hp : probe ht.keys key (ht.hash key) false = some idx0) :
    ph_insert ht key value = phInsertAt ht key value (phResolve ht key idx0) := by
  unfold ph_insert
  rw [hp]

theorem phResolve_of_not_tomb {K V : Type} [DecidableEq K]
    {ht : ProbingHashtable K V} {key : K} {idx0 : Nat}
    (h : ht.keys.getD idx0 Slot.empty ≠ Slot.tomb) :
    phResolve ht key idx0 = idx0 := by
  unfold phResolve
  rw [if_neg h]

theorem phResolve_of_tomb_some {K V : Type} [DecidableEq K]
    {ht : ProbingHashtable K V} {key : K} {idx0 j : Nat}
    (h : ht.keys.getD idx0 Slot.empty = Slot.tomb)
    (hq : probe ht.keys key (idx0 : Int) true = some j) :
    phResolve ht key idx0 = j := by
  unfold phResolve
  rw [if_pos h, hq]

theorem phResolve_of_tomb_none {K V : Type} [DecidableEq K]
    {ht : ProbingHashtable K V} {key : K} {idx0 : Nat}
    (h : ht.keys.getD idx0 Slot.empty = Slot.tomb)
    (hq : probe ht.keys key (idx0 : Int) true = none) :
    phResolve ht key idx0 = idx0 := by
  unfold phResolve
  rw [if_pos h, hq]

theorem phInsertAt_of_occ_self {K V : Type} [DecidableEq K]
    {ht : ProbingHashtable K V} {key : K} (value : V) {idx : Nat}
    (h : ht.keys.getD idx Slot.empty = Slot.occ key) :
    phInsertAt ht key value idx =
      (⟨ht.keys.set idx (Slot.occ key), ht.values.set idx (some value),
        ht.hash, ht.entries⟩, true) := by
  unfold phInsertAt
  rw [if_neg (show ¬ht.keys.getD idx Slot.empty ≠ Slot.occ key from fun hc => hc h)]

theorem phInsertAt_of_new_full {K V : Type} [DecidableEq K]
    {ht : ProbingHashtable K V} {key : K} (value : V) {idx : Nat}
    (h : ht.keys.getD idx Slot.empty ≠ Slot.occ key)
    (hfull : ht.entries = (ht.keys.length : Int)) :
    phInsertAt ht key value idx = (ht, false) := by
  unfold phInsertAt
  rw [if_pos h, if_pos hfull]

theorem phInsertAt_of_new_room {K V : Type} [DecidableEq K]
    {ht : ProbingHashtable K V} {key : K} (value : V) {idx : Nat}
    (h : ht.keys.getD idx Slot.empty ≠ Slot.occ key)
    (hfull : ht.entries ≠ (ht.keys.length : Int)) :
    phInsertAt ht key value idx =
      (⟨ht.keys.set idx (Slot.occ key), ht.values.set idx (some value),
        ht.hash, ht.entries + 1⟩, true) := by
  unfold phInsertAt
  rw [if_pos h, if_neg hfull]

theorem ph_delete_of_probe_none {K V : Type} [DecidableEq K]
    {ht : ProbingHashtable K V} {key : K}
    (hp : probe ht.keys key (ht.hash key) true = none) :
    ph_delete ht key = (ht, none) := by
  unfold ph_delete
  rw [hp]

theorem ph_delete_of_probe_empty {K V : Type} [DecidableEq K]
    {ht : ProbingHashtable K V} {key : K} {idx : Nat}
    (hp : probe ht.keys key (ht.hash key) true = some idx)
    (hsl : ht.keys.getD idx Slot.empty = Slot.empty) :
    ph_delete ht key = (ht, none) := by
  unfold ph_delete
  rw [hp]
  exact if_pos hsl

theorem ph_delete_of_probe_hit {K V : Type} [DecidableEq K]
    {ht : ProbingHashtable K V} {key : K} {idx : Nat}
    (hp : probe ht.keys key (ht.hash key) true = some idx)
    (hsl : ht.keys.getD idx Slot.empty ≠ Slot.empty) :
    ph_delete ht key =
      (⟨ht.keys.set idx Slot.tomb, ht.values.set idx none,
        ht.hash, ht.entries - 1⟩, ht.values.getD idx none) := by
  unfold ph_delete
  rw [hp]
  exact if_neg hsl

/-! ### Full case analysis of `ph_insert` (non-negative hash) -/

theorem ph_insert_main {K V : Type} [DecidableEq K] (ht : ProbingHashtable K V)
    (key : K) (value : V) (hnn : 0 ≤ ht.hash key) :
    (probe ht.keys key (ht.hash key) false = none ∧
      ph_insert ht key value = (ht, false) ∧ Slot.occ key ∉ ht.keys) ∨
    (∃ t idx, t < ht.keys.length ∧
      idx = pstep (ht.hash key).toNat ht.keys.length t ∧
      (∀ u, u < t →
        ht.keys.getD (pstep (ht.hash key).toNat ht.keys.length u) Slot.empty ≠ Slot.empty ∧
        ht.keys.getD (pstep (ht.hash key).toNat ht.keys.length u) Slot.empty ≠ Slot.occ key) ∧
      ((ht.keys.getD idx Slot.empty = Slot.occ key ∧
         ph_insert ht key value =
           (⟨ht.keys.set idx (Slot.occ key), ht.values.set idx (some value),
             ht.hash, ht.entries⟩, true)) ∨
       ((ht.keys.getD idx Slot.empty = Slot.empty ∨
           ht.keys.getD idx Slot.empty = Slot.tomb) ∧
        (ReachInv ht → Slot.occ key ∉ ht.keys) ∧
        ((ht.entries = (ht.keys.length : Int) ∧ ph_insert ht key value = (ht, false)) ∨
         (ht.entries ≠ (ht.keys.length : Int) ∧
           ph_insert ht key value =
             (⟨ht.keys.set idx (Slot.occ key), ht.values.set idx (some value),
               ht.hash, ht.entries + 1⟩, true)))))) := by
  cases hp : probe ht.keys key (ht.hash key) false with
  | none =>
    left
    refine ⟨rfl, ph_insert_of_probe_none value hp, ?_⟩
    intro hmem
    obtain ⟨p, hplt, hpslot⟩ := exists_getD_of_occ_mem hmem
    have hcon := slots_of_probe_none hnn hp p hplt
    rw [hpslot, isStop_occ_self] at hcon
    cases hcon
  | some idx0 =>
    right
    obtain ⟨t0, ht0, hidx0, hstop0, hbef0⟩ := probe_eq_some_pstep hnn hp
    have hlen : 0 < ht.keys.length := by omega
    have hins := ph_insert_of_probe_some value hp
    have hbefoth : ∀ u, u < t0 → ∃ k2,
        ht.keys.getD (pstep (ht.hash key).toNat ht.keys.length u) Slot.empty =
          Slot.occ k2 ∧ k2 ≠ key := by
      intro u hu
      exact (isStop_false_eq_false_iff key _).mp (hbef0 u hu)
    have hbefne : ∀ u, u < t0 →
        ht.keys.getD (pstep (ht.hash key).toNat ht.keys.length u) Slot.empty ≠ Slot.empty ∧
        ht.keys.getD (pstep (ht.hash key).toNat ht.keys.length u) Slot.empty ≠ Slot.occ key := by
      intro u hu
      obtain ⟨k2, he, hk2⟩ := hbefoth u hu
      rw [he]
      exact ⟨by simp, by simp [hk2]⟩
    cases hsl : ht.keys.getD idx0 Slot.empty with
    | occ k2 =>
      have hk2 : k2 = key := by
        rw [hsl] at hstop0
        simpa [isStop] using hstop0
      rw [hk2] at hsl
      have hres : phResolve ht key idx0 = idx0 :=
        phResolve_of_not_tomb (by rw [hsl]; simp)
      refine ⟨t0, idx0, ht0, hidx0, hbefne, Or.inl ⟨hsl, ?_⟩⟩
      rw [hins, hres, phInsertAt_of_occ_self value hsl]
    | empty =>
      have hres : phResolve ht key idx0 = idx0 :=
        phResolve_of_not_tomb (by rw [hsl]; simp)
      refine ⟨t0, idx0, ht0, hidx0, hbefne, Or.inr ⟨Or.inl hsl, ?_, ?_⟩⟩
      · intro hreach hmem
        obtain ⟨p, hplt, hpslot⟩ := exists_getD_of_occ_mem hmem
        obtain ⟨m, hmlt, hmp⟩ :=
          pstep_surj (ht.hash key).toNat ht.keys.length p hlen hplt
        have hmt0 : t0 < m := by
          rcases Nat.lt_trichotomy m t0 with h1 | h1 | h1
          · obtain ⟨k2, he, hk2⟩ := hbefoth m h1
            rw [hmp, hpslot] at he
            exact absurd (Slot.occ.inj he).symm hk2
          · subst h1
            have hip : idx0 = p := hidx0.trans hmp
            rw [← hip, hsl] at hpslot
            simp at hpslot
          · exact h1
        have hcon := hreach key m t0 hmlt hmt0 (by rw [hmp]; exact hpslot)
        rw [← hidx0] at hcon
        exact hcon hsl
      · rcases eq_or_ne ht.entries ((ht.keys.length : Nat) : Int) with hf | hf
        · exact Or.inl ⟨hf, by
            rw [hins, hres, phInsertAt_of_new_full value (by rw [hsl]; simp) hf]⟩
        · exact Or.inr ⟨hf, by
            rw [hins, hres, phInsertAt_of_new_room value (by rw [hsl]; simp) hf]⟩
    | tomb =>
      cases hq : probe ht.keys key (idx0 : Int) true with
      | none =>
        have hres := phResolve_of_tomb_none hsl hq
        refine ⟨t0, idx0, ht0, hidx0, hbefne, Or.inr ⟨Or.inr hsl, ?_, ?_⟩⟩
        · intro _ hmem
          obtain ⟨p, hplt, hpslot⟩ := exists_getD_of_occ_mem hmem
          have hcon := slots_of_probe_none (Int.natCast_nonneg idx0) hq p hplt
          rw [hpslot, isStop_occ_self] at hcon
          cases hcon
        · rcases eq_or_ne ht.entries ((ht.keys.length : Nat) : Int) with hf | hf
          · exact Or.inl ⟨hf, by
              rw [hins, hres, phInsertAt_of_new_full value (by rw [hsl]; simp) hf]⟩
          · exact Or.inr ⟨hf, by
              rw [hins, hres, phInsertAt_of_new_room value (by rw [hsl]; simp) hf]⟩
      | some j =>
        have hres := phResolve_of_tomb_some hsl hq
        obtain ⟨t1, ht1, hj, hstop1, hbef1⟩ :=
          probe_eq_some_pstep (Int.natCast_nonneg idx0) hq
        rw [Int.toNat_natCast] at hj hbef1
        have hjps : j = pstep (ht.hash key).toNat ht.keys.length (t0 + t1) := by
          rw [hj, hidx0, pstep_add]
        have hnw : t0 + t1 < ht.keys.length := by
          by_contra hge
          push_neg at hge
          have hm : t0 + t1 - ht.keys.length < t0 := by omega
          have heq : pstep (ht.hash key).toNat ht.keys.length (t0 + t1) =
              pstep (ht.hash key).toNat ht.keys.length (t0 + t1 - ht.keys.length) := by
            unfold pstep
            rw [show (ht.hash key).toNat + (t0 + t1) =
              (ht.hash key).toNat + (t0 + t1 - ht.keys.length) + ht.keys.length by omega,
              Nat.add_mod_right]
          obtain ⟨k2, he, hk2⟩ := hbefoth _ hm
          rw [← heq, ← hjps] at he
          rw [he] at hstop1
          simp [isStop, hk2] at hstop1
        have hbefne2 : ∀ u, u < t0 + t1 →
            ht.keys.getD (pstep (ht.hash key).toNat ht.keys.length u) Slot.empty ≠ Slot.empty ∧
            ht.keys.getD (pstep (ht.hash key).toNat ht.keys.length u) Slot.empty ≠
              Slot.occ key := by
          intro u hu
          rcases Nat.lt_trichotomy u t0 with h1 | h1 | h1
          · exact hbefne u h1
          · subst h1
            rw [← hidx0, hsl]
            exact ⟨by simp, by simp⟩
          · have hw : u - t0 < t1 := by omega
            have h2 := hbef1 (u - t0) hw
            rw [hidx0, pstep_add, show t0 + (u - t0) = u by omega] at h2
            have h3 := (isStop_true_eq_false_iff key _).mp h2
            exact ⟨h3.2, h3.1⟩
        rcases (isStop_true_eq_true_iff key _).mp hstop1 with hjocc | hjempty
        · refine ⟨t0 + t1, j, hnw, hjps, hbefne2, Or.inl ⟨hjocc, ?_⟩⟩
          rw [hins, hres, phInsertAt_of_occ_self value hjocc]
        · refine ⟨t0 + t1, j, hnw, hjps, hbefne2, Or.inr ⟨Or.inl hjempty, ?_, ?_⟩⟩
          · intro hreach hmem
            obtain ⟨p, hplt, hpslot⟩ := exists_getD_of_occ_mem hmem
            obtain ⟨w, hwlt, hwp⟩ := pstep_surj idx0 ht.keys.length p hlen hplt
            have hwgt : t1 < w := by
              rcases Nat.lt_trichotomy w t1 with h1 | h1 | h1
              · have h2 := hbef1 w h1
                rw [hwp, hpslot, isStop_occ_self] at h2
                cases h2
              · subst h1
                have hjp : j = p := hj.trans hwp
                rw [← hjp, hjempty] at hpslot
                simp at hpslot
              · exact h1
            have hp2 : pstep (ht.hash key).toNat ht.keys.length (t0 + w) = p := by
              rw [← pstep_add, ← hidx0, hwp]
            have hnw2 : t0 + w < ht.keys.length := by
              by_contra hge
              push_neg at hge
              have hm : t0 + w - ht.keys.length < t0 := by omega
              have heq : pstep (ht.hash key).toNat ht.keys.length (t0 + w) =
                  pstep (ht.hash key).toNat ht.keys.length (t0 + w - ht.keys.length) := by
                unfold pstep
                rw [show (ht.hash key).toNat + (t0 + w) =
                  (ht.hash key).toNat + (t0 + w - ht.keys.length) + ht.keys.length by omega,
                  Nat.add_mod_right]
              obtain ⟨k2, he, hk2⟩ := hbefoth _ hm
              rw [← heq, hp2, hpslot] at he
              exact hk2 (Slot.occ.inj he).symm
            have hcon := hreach key (t0 + w) (t0 + t1) hnw2 (by omega)
              (by rw [hp2]; exact hpslot)
            rw [← hjps] at hcon
            exact hcon hjempty
          · rcases eq_or_ne ht.entries ((ht.keys.length : Nat) : Int) with hf | hf
            · exact Or.inl ⟨hf, by
                rw [hins, hres, phInsertAt_of_new_full value (by rw [hjempty]; simp) hf]⟩
            · exact Or.inr ⟨hf, by
                rw [hins, hres, phInsertAt_of_new_room value (by rw [hjempty]; simp) hf]⟩

/-! ### Field preservation and well-formedness -/

theorem getD_eq_getElem {α : Type} (l : List α) (i : Nat) (d : α)
    (h : i < l.length) : l.getD i d = l[i] := by
  rw [List.getD_eq_getElem?_getD, List.getElem?_eq_getElem h]
  rfl

theorem getD_replicate {α : Type} (n i : Nat) (a : α) :
    (List.replicate n a).getD i a = a := by
  rw [List.getD_eq_getElem?_getD, List.getElem?_replicate]
  split <;> rfl

theorem ph_insert_fields {K V : Type} [DecidableEq K] (ht : ProbingHashtable K V)
    (key : K) (value : V) :
    (ph_insert ht key value).1.hash = ht.hash ∧
    (ph_insert ht key value).1.keys.length = ht.keys.length ∧
    (ph_insert ht key value).1.values.length = ht.values.length := by
  cases hp : probe ht.keys key (ht.hash key) false with
  | none =>
    rw [ph_insert_of_probe_none value hp]
    exact ⟨rfl, rfl, rfl⟩
  | some idx0 =>
    rw [ph_insert_of_probe_some value hp]
    unfold phInsertAt
    split
    · split
      · exact ⟨rfl, rfl, rfl⟩
      · exact ⟨rfl, by simp, by simp⟩
    · exact ⟨rfl, by simp, by simp⟩

theorem ph_delete_fields {K V : Type} [DecidableEq K] (ht : ProbingHashtable K V)
    (key : K) :
    (ph_delete ht key).1.hash = ht.hash ∧
    (ph_delete ht key).1.keys.length = ht.keys.length ∧
    (ph_delete ht key).1.values.length = ht.values.length := by
  cases hp : probe ht.keys key (ht.hash key) true with
  | none =>
    rw [ph_delete_of_probe_none hp]
    exact ⟨rfl, rfl, rfl⟩
  | some idx =>
    by_cases hsl : ht.keys.getD idx Slot.empty = Slot.empty
    · rw [ph_delete_of_probe_empty hp hsl]
      exact ⟨rfl, rfl, rfl⟩
    · rw [ph_delete_of_probe_hit hp hsl]
      exact ⟨rfl, by simp, by simp⟩

theorem wf_ph_empty {K V : Type} [DecidableEq K] (size : Nat) (f : HashFunction K) :
    Wf (ph_empty (K := K) (V := V) size f) := by
  constructor
  · simp [ph_empty]
  · simp [ph_empty, occCount, List.countP_replicate, occP]
  · intro k
    simp [ph_empty, keyCount, List.countP_replicate]
  · intro k i j hi hj he
    unfold ph_empty at he
    rw [getD_replicate] at he
    cases he

theorem wf_ph_insert {K V : Type} [DecidableEq K] {ht : ProbingHashtable K V}
    (key : K) (value : V) (hw : Wf ht) (hnn : 0 ≤ ht.hash key) :
    Wf (ph_insert ht key value).1 := by
  rcases ph_insert_main ht key value hnn with ⟨_, heq, _⟩ | ⟨t, idx, htl, hidx, hbef, hcase⟩
  · rw [heq]
    exact hw
  · have hlen : 0 < ht.keys.length := by omega
    have hidxlt : idx < ht.keys.length := by
      rw [hidx]
      exact pstep_lt _ _ _ hlen
    rcases hcase with ⟨hocc, heq⟩ | ⟨hfree, hnotin, hcase2⟩
    · have hkeq : ht.keys.set idx (Slot.occ key) = ht.keys :=
        set_getD_self _ _ _ _ hocc
      rw [heq]
      constructor
      · show (ht.values.set idx (some value)).length = (ht.keys.set idx (Slot.occ key)).length
        simp [hw.lenv]
      · show ht.entries = (occCount (ht.keys.set idx (Slot.occ key)) : Int)
        rw [hkeq]
        exact hw.ecount
      · intro k
        show keyCount (ht.keys.set idx (Slot.occ key)) k ≤ 1
        rw [hkeq]
        exact hw.dup k
      · unfold ReachInv
        simp only [hkeq]
        exact hw.reach
    · have hnotin2 : Slot.occ key ∉ ht.keys := hnotin hw.reach
      rcases hcase2 with ⟨_, heq⟩ | ⟨hne, heq⟩
      · rw [heq]
        exact hw
      · rw [heq]
        constructor
        · show (ht.values.set idx (some value)).length = (ht.keys.set idx (Slot.occ key)).length
          simp [hw.lenv]
        · show ht.entries + 1 = (occCount (ht.keys.set idx (Slot.occ key)) : Int)
          have hcount : occCount (ht.keys.set idx (Slot.occ key)) = occCount ht.keys + 1 := by
            unfold occCount
            rw [List.countP_set _ _ _ _ hidxlt, ← getD_eq_getElem _ _ Slot.empty hidxlt]
            have holdslot : occP (ht.keys.getD idx Slot.empty) = false := by
              rcases hfree with h | h <;> rw [h] <;> rfl
            rw [holdslot]
            simp [occP]
          rw [hcount, hw.ecount]
          push_cast
          ring
        · intro k
          show keyCount (ht.keys.set idx (Slot.occ key)) k ≤ 1
          unfold keyCount
          rw [List.countP_set _ _ _ _ hidxlt, ← getD_eq_getElem _ _ Slot.empty hidxlt]
          have hold : decide (ht.keys.getD idx Slot.empty = Slot.occ k) = false := by
            rcases hfree with h | h <;> rw [h] <;> simp
          rw [hold]
          by_cases hk : k = key
          · subst hk
            have hzero : List.countP (fun s => decide (s = Slot.occ k)) ht.keys = 0 := by
              rw [List.countP_eq_zero]
              intro a ha
              simp only [decide_eq_true_eq]
              intro hac
              exact hnotin2 (hac ▸ ha)
            simp [hzero]
          · have hnk : decide (Slot.occ key = Slot.occ k) = false := by
              simp
              intro hc
              exact hk hc.symm
            rw [hnk]
            have := hw.dup k
            unfold keyCount at this
            simp only [if_neg (by simp : ¬(false = true)), Nat.sub_zero, Nat.add_zero]
            omega
        · intro k i j hi hj he
          dsimp only at hi he ⊢
          simp only [List.length_set] at hi he ⊢
          by_cases hqi : pstep (ht.hash k).toNat ht.keys.length i = idx
          · rw [hqi, getD_set_self _ _ _ _ hidxlt] at he
            obtain rfl : k = key := (Slot.occ.inj he).symm
            have hit : i = t := pstep_inj hi htl (by rw [hqi, hidx])
            by_cases hqj : pstep (ht.hash k).toNat ht.keys.length j = idx
            · have hji : j = i := pstep_inj (by omega) hi (hqj.trans hqi.symm)
              exact absurd hji (by omega)
            · rw [getD_set_ne _ _ _ _ _ fun hh => hqj hh.symm]
              exact (hbef j (by omega)).1
          · rw [getD_set_ne _ _ _ _ _ fun hh => hqi hh.symm] at he
            have hold := hw.reach k i j hi hj he
            by_cases hqj : pstep (ht.hash k).toNat ht.keys.length j = idx
            · rw [hqj, getD_set_self _ _ _ _ hidxlt]
              simp
            · rw [getD_set_ne _ _ _ _ _ fun hh => hqj hh.symm]
              exact hold

theorem wf_ph_delete {K V : Type} [DecidableEq K] {ht : ProbingHashtable K V}
    (key : K) (hw : Wf ht) (hnn : 0 ≤ ht.hash key) :
    Wf (ph_delete ht key).1 := by
  cases hp : probe ht.keys key (ht.hash key) true with
  | none =>
    rw [ph_delete_of_probe_none hp]
    exact hw
  | some idx =>
    obtain ⟨t, htl, hidx, hstop, hbef⟩ := probe_eq_some_pstep hnn hp
    have hlen : 0 < ht.keys.length := by omega
    have hidxlt : idx < ht.keys.length := by
      rw [hidx]
      exact pstep_lt _ _ _ hlen
    rcases (isStop_true_eq_true_iff key _).mp hstop with hocc | hempty
    · have hne : ht.keys.getD idx Slot.empty ≠ Slot.empty := by
        rw [hocc]
        simp
      rw [ph_delete_of_probe_hit hp hne]
      constructor
      · show (ht.values.set idx none).length = (ht.keys.set idx Slot.tomb).length
        simp [hw.lenv]
      · show ht.entries - 1 = (occCount (ht.keys.set idx Slot.tomb) : Int)
        have hcount : occCount (ht.keys.set idx Slot.tomb) + 1 = occCount ht.keys := by
          unfold occCount
          rw [List.countP_set _ _ _ _ hidxlt, ← getD_eq_getElem _ _ Slot.empty hidxlt, hocc]
          have hcpos : 0 < List.countP occP ht.keys := by
            rw [List.countP_pos_iff]
            exact ⟨Slot.occ key, occ_mem_of_getD hidxlt hocc, rfl⟩
          simp [occP]
          omega
        have he := hw.ecount
        omega
      · intro k
        show keyCount (ht.keys.set idx Slot.tomb) k ≤ 1
        unfold keyCount
        rw [List.countP_set _ _ _ _ hidxlt, ← getD_eq_getElem _ _ Slot.empty hidxlt, hocc]
        have h2 : decide (Slot.tomb = Slot.occ k) = false := by simp
        rw [h2]
        have hd := hw.dup k
        unfold keyCount at hd
        simp only [Nat.add_zero, if_neg (by simp : ¬(false = true))]
        split <;> omega
      · intro k i j hi hj he
        dsimp only at hi he ⊢
        simp only [List.length_set] at hi he ⊢
        by_cases hqi : pstep (ht.hash k).toNat ht.keys.length i = idx
        · rw [hqi, getD_set_self _ _ _ _ hidxlt] at he
          cases he
        · rw [getD_set_ne _ _ _ _ _ fun hh => hqi hh.symm] at he
          have hold := hw.reach k i j hi hj he
          by_cases hqj : pstep (ht.hash k).toNat ht.keys.length j = idx
          · rw [hqj, getD_set_self _ _ _ _ hidxlt]
            simp
          · rw [getD_set_ne _ _ _ _ _ fun hh => hqj hh.symm]
            exact hold
    · rw [ph_delete_of_probe_empty hp hempty]
      exact hw

theorem reachable_wf {K V : Type} [DecidableEq K] {ht : ProbingHashtable K V}
    (hr : Reachable ht) (hnn : ∀ k, 0 ≤ ht.hash k) : Wf ht := by
  induction hr with
  | empty size f => exact wf_ph_empty size f
  | insert ht0 key value hr0 ih =>
    have hh := (ph_insert_fields ht0 key value).1
    have hnn0 : ∀ k, 0 ≤ ht0.hash k := by
      intro k
      have h2 := hnn k
      rwa [hh] at h2
    exact wf_ph_insert key value (ih hnn0) (hnn0 key)
  | delete ht0 key hr0 ih =>
    have hh := (ph_delete_fields ht0 key).1
    have hnn0 : ∀ k, 0 ≤ ht0.hash k := by
      intro k
      have h2 := hnn k
      rwa [hh] at h2
    exact wf_ph_delete key (ih hnn0) (hnn0 key)


/-! ### Lookup after insert (probing) -/

theorem ph_lookup_eq_of_probe_some {K V : Type} [DecidableEq K]
    (ht : ProbingHashtable K V) (key : K) {idx : Nat}
    (hp : probe ht.keys key (ht.hash key) true = some idx) :
    ph_lookup ht key = ht.values.getD idx none := by
  unfold ph_lookup
  rw [hp]

theorem ph_lookup_eq_of_probe_none {K V : Type} [DecidableEq K]
    (ht : ProbingHashtable K V) (key : K)
    (hp : probe ht.keys key (ht.hash key) true = none) :
    ph_lookup ht key = none := by
  unfold ph_lookup
  rw [hp]

theorem ph_insert_lookup {K V : Type} [DecidableEq K] (ht : ProbingHashtable K V)
    (key : K) (value : V) (hnn : 0 ≤ ht.hash key)
    (hlenv : ht.values.length = ht.keys.length)
    (hs : (ph_insert ht key value).2 = true) :
    ph_lookup (ph_insert ht key value).1 key = some value := by
  rcases ph_insert_main ht key value hnn with ⟨_, heq, _⟩ | ⟨t, idx, htl, hidx, hbef, hcase⟩
  · rw [heq] at hs
    cases hs
  · have hlen : 0 < ht.keys.length := by omega
    have hidxlt : idx < ht.keys.length := by
      rw [hidx]
      exact pstep_lt _ _ _ hlen
    have hres : ∃ e, ph_insert ht key value =
        (⟨ht.keys.set idx (Slot.occ key), ht.values.set idx (some value),
          ht.hash, e⟩, true) := by
      rcases hcase with ⟨_, heq⟩ | ⟨_, _, hc2⟩
      · exact ⟨ht.entries, heq⟩
      · rcases hc2 with ⟨_, heq⟩ | ⟨_, heq⟩
        · rw [heq] at hs
          cases hs
        · exact ⟨ht.entries + 1, heq⟩
    obtain ⟨e, heq⟩ := hres
    rw [heq]
    have hplookup : probe (ht.keys.set idx (Slot.occ key)) key (ht.hash key) true =
        some (pstep (ht.hash key).toNat (ht.keys.set idx (Slot.occ key)).length t) := by
      apply probe_first hnn
      · simp only [List.length_set]
        exact htl
      · simp only [List.length_set]
        rw [← hidx, getD_set_self _ _ _ _ hidxlt]
        exact isStop_occ_self true key
      · intro u hu
        simp only [List.length_set]
        have hne : idx ≠ pstep (ht.hash key).toNat ht.keys.length u := by
          rw [hidx]
          intro hc
          have := pstep_inj htl (show u < ht.keys.length by omega) hc
          omega
        rw [getD_set_ne _ _ _ _ _ hne]
        have hb := hbef u hu
        rw [isStop_true_eq_false_iff]
        exact ⟨hb.2, hb.1⟩
    rw [ph_lookup_eq_of_probe_some _ _ hplookup]
    simp only [List.length_set]
    rw [← hidx, getD_set_self _ _ _ _ (by omega : idx < ht.values.length)]

/-! ### Chaining-table helpers -/

theorem ch_insert_eq {K V : Type} [DecidableEq K] (t : ChainingHashtable K V)
    (key : K) (value : V) :
    ch_insert t key value =
      match scan (t.arr.getD (chIndex t key) []) key with
      | none =>
        (⟨t.arr.set (chIndex t key) ((key, value) :: t.arr.getD (chIndex t key) []),
          t.hash⟩, false)
      | some _ =>
        (⟨t.arr.set (chIndex t key)
            ((t.arr.getD (chIndex t key) []).map fun kv =>
              if key = kv.1 then (key, value) else kv),
          t.hash⟩, true) := rfl

theorem ch_delete_eq {K V : Type} [DecidableEq K] (t : ChainingHashtable K V)
    (key : K) :
    ch_delete t key =
      match scan (t.arr.getD (chIndex t key) []) key with
      | none => (t, false)
      | some _ =>
        (⟨t.arr.set (chIndex t key)
            ((t.arr.getD (chIndex t key) []).filter fun kv => decide (kv.1 ≠ key)),
          t.hash⟩, true) := rfl

theorem chIndex_lt {K V : Type} (t : ChainingHashtable K V) (key : K)
    (h : 0 < t.arr.length) : chIndex t key < t.arr.length := by
  unfold chIndex
  have h0 : (0 : Int) < (t.arr.length : Int) := by exact_mod_cast h
  have h1 : mod (t.hash key) (t.arr.length : Int) < (t.arr.length : Int) :=
    mod_lt _ _ h0
  have h2 : 0 ≤ mod (t.hash key) (t.arr.length : Int) := mod_nonneg _ _ h0
  omega

theorem chIndex_set {K V : Type} (t : ChainingHashtable K V) (key : K)
    (i : Nat) (b : List (K × V)) :
    chIndex (⟨t.arr.set i b, t.hash⟩ : ChainingHashtable K V) key = chIndex t key := by
  unfold chIndex
  dsimp only
  rw [List.length_set]

theorem scan_map_replace {K V : Type} [DecidableEq K] (b : List (K × V))
    (key : K) (value : V) (v0 : V) (h : scan b key = some v0) :
    scan (b.map fun kv => if key = kv.1 then (key, value) else kv) key = some value := by
  induction b with
  | nil => cases h
  | cons kv rest ih =>
    by_cases hk : key = kv.1
    · simp [scan, hk]
    · rw [List.map_cons, if_neg hk]
      rw [show scan (kv :: rest) key = scan rest key by simp [scan, hk]] at h
      rw [show scan (kv :: (rest.map fun kv => if key = kv.1 then (key, value) else kv)) key
          = scan (rest.map fun kv => if key = kv.1 then (key, value) else kv) key by
        simp [scan, hk]]
      exact ih h

theorem map_fst_map_replace {K V : Type} [DecidableEq K] (b : List (K × V))
    (key : K) (value : V) :
    (b.map fun kv => if key = kv.1 then (key, value) else kv).map Prod.fst =
      b.map Prod.fst := by
  induction b with
  | nil => rfl
  | cons kv rest ih =>
    have hhd : (if key = kv.1 then (key, value) else kv).1 = kv.1 := by
      by_cases hk : key = kv.1
      · rw [if_pos hk]
        exact hk
      · rw [if_neg hk]
    rw [List.map_cons, List.map_cons, List.map_cons, hhd, ih]

theorem ch_insert_lookup {K V : Type} [DecidableEq K] (t : ChainingHashtable K V)
    (key : K) (value : V) (hcap : 0 < t.arr.length) :
    ch_lookup (ch_insert t key value).1 key = some value := by
  have hidx : chIndex t key < t.arr.length := chIndex_lt t key hcap
  rw [ch_insert_eq]
  cases hscan : scan (t.arr.getD (chIndex t key) []) key with
  | none =>
    unfold ch_lookup
    rw [chIndex_set, getD_set_self _ _ _ _ hidx]
    simp [scan]
  | some v0 =>
    unfold ch_lookup
    rw [chIndex_set, getD_set_self _ _ _ _ hidx]
    exact scan_map_replace _ key value v0 hscan

/-! ### Keys extraction -/

theorem build_list_getD {A : Type} (l : List A) (d : A) :
    build_list (fun i => l.getD i d) l.length = l := by
  unfold build_list
  induction l with
  | nil => simp
  | cons x xs ih =>
    rw [List.length_cons, List.range_succ_eq_map, List.map_cons, List.map_map]
    have hcomp : ((fun i => (x :: xs).getD i d) ∘ Nat.succ) = fun i => xs.getD i d := by
      funext i
      rfl
    rw [hcomp, ih, List.getD_cons_zero]

theorem ch_keys_eq {K V : Type} (t : ChainingHashtable K V) :
    ch_keys t = (t.arr.flatten).map Prod.fst := by
  unfold ch_keys
  rw [build_list_getD]

theorem ph_keys_eq {K V : Type} (tab : ProbingHashtable K V) :
    ph_keys tab = filterNulls tab.keys := by
  unfold ph_keys
  rw [build_list_getD]

theorem filterNulls_eq_filterMap {K : Type} (l : List (Slot K)) :
    filterNulls l = l.filterMap (fun s => match s with
      | Slot.occ k => some k
      | Slot.empty => none
      | Slot.tomb => none) := by
  induction l with
  | nil => rfl
  | cons s rest ih => cases s <;> simp [filterNulls, List.filterMap_cons, ih]

/-! ### A full insertion sequence with no deletions (for capacity exhaustion) -/

theorem exists_getD_of_mem {A : Type} {l : List A} {a : A} (h : a ∈ l) (d : A) :
    ∃ i, i < l.length ∧ l.getD i d = a := by
  obtain ⟨n, hn, he⟩ := List.mem_iff_getElem.mp h
  refine ⟨n, hn, ?_⟩
  rw [List.getD_eq_getElem?_getD, List.getElem?_eq_getElem hn]
  simpa using he

theorem ph_insert_step_notomb {K V : Type} [DecidableEq K] {ht : ProbingHashtable K V}
    (key : K) (value : V)
    (hnn : 0 ≤ ht.hash key)
    (hnt : ∀ s ∈ ht.keys, s ≠ Slot.tomb)
    (hec : ht.entries = (occCount ht.keys : Int))
    (hnew : Slot.occ key ∉ ht.keys)
    (hroom : occCount ht.keys < ht.keys.length) :
    (ph_insert ht key value).2 = true ∧
    (ph_insert ht key value).1.entries = ht.entries + 1 ∧
    (ph_insert ht key value).1.keys.length = ht.keys.length ∧
    (ph_insert ht key value).1.hash = ht.hash ∧
    occCount (ph_insert ht key value).1.keys = occCount ht.keys + 1 ∧
    (∀ s, s ∈ (ph_insert ht key value).1.keys → s = Slot.occ key ∨ s ∈ ht.keys) := by
  have hempty : Slot.empty ∈ ht.keys := by
    have hlt : List.countP occP ht.keys < ht.keys.length := hroom
    have hex : ∃ s ∈ ht.keys, ¬occP s = true := by
      by_contra hc
      push_neg at hc
      have := List.countP_eq_length.mpr hc
      omega
    obtain ⟨s, hs, hso⟩ := hex
    cases s with
    | empty => exact hs
    | tomb => exact absurd rfl (hnt _ hs)
    | occ k2 => exact absurd rfl hso
  have hpne : probe ht.keys key (ht.hash key) false ≠ none := by
    intro hnone
    obtain ⟨p, hp, hpe⟩ := exists_getD_of_mem hempty Slot.empty
    have := slots_of_probe_none hnn hnone p hp
    rw [hpe] at this
    cases this
  rcases ph_insert_main ht key value hnn with ⟨hpn, _, _⟩ | ⟨t, idx, htl, hidx, hbef, hcase⟩
  · exact absurd hpn hpne
  · have hlen : 0 < ht.keys.length := by omega
    have hidxlt : idx < ht.keys.length := by
      rw [hidx]
      exact pstep_lt _ _ _ hlen
    rcases hcase with ⟨hocc, _⟩ | ⟨hfree, _, hcase2⟩
    · exact absurd (occ_mem_of_getD hidxlt hocc) hnew
    · rcases hcase2 with ⟨hf, _⟩ | ⟨_, heq⟩
      · rw [hec] at hf
        have : occCount ht.keys = ht.keys.length := by exact_mod_cast hf
        omega
      · rw [heq]
        refine ⟨rfl, rfl, by simp, rfl, ?_, ?_⟩
        · unfold occCount
          rw [List.countP_set _ _ _ _ hidxlt, ← getD_eq_getElem _ _ Slot.empty hidxlt]
          have holdslot : occP (ht.keys.getD idx Slot.empty) = false := by
            rcases hfree with h | h
            · rw [h]
              rfl
            · rw [h]
              rfl
          rw [holdslot]
          simp [occP]
        · intro s hsm
          exact mem_of_mem_set hsm

theorem insertAll_cons {K V : Type} [DecidableEq K] (ht : ProbingHashtable K V)
    (p : K × V) (rest : List (K × V)) :
    insertAll ht (p :: rest) =
      ((insertAll (ph_insert ht p.1 p.2).1 rest).1,
        (ph_insert ht p.1 p.2).2 && (insertAll (ph_insert ht p.1 p.2).1 rest).2) := rfl

theorem insertAll_filling {K V : Type} [DecidableEq K] (pairs : List (K × V)) :
    ∀ ht : ProbingHashtable K V,
    (∀ k, 0 ≤ ht.hash k) →
    (∀ s ∈ ht.keys, s ≠ Slot.tomb) →
    ht.entries = (occCount ht.keys : Int) →
    (∀ k ∈ pairs.map Prod.fst, Slot.occ k ∉ ht.keys) →
    (pairs.map Prod.fst).Nodup →
    occCount ht.keys + pairs.length ≤ ht.keys.length →
    (insertAll ht pairs).2 = true ∧
    (insertAll ht pairs).1.entries = ht.entries + pairs.length ∧
    (insertAll ht pairs).1.keys.length = ht.keys.length ∧
    (insertAll ht pairs).1.hash = ht.hash ∧
    occCount (insertAll ht pairs).1.keys = occCount ht.keys + pairs.length ∧
    (insertAll ht pairs).1.values.length = ht.values.length ∧
    (∀ s, s ∈ (insertAll ht pairs).1.keys →
      s ∈ ht.keys ∨ ∃ k, k ∈ pairs.map Prod.fst ∧ s = Slot.occ k) := by
  induction pairs with
  | nil =>
    intro ht _ _ _ _ _ _
    exact ⟨rfl, by simp [insertAll], rfl, rfl, by simp [insertAll], rfl,
      fun s hs => Or.inl hs⟩
  | cons p rest ih =>
    intro ht hnn hnt hec hdisj hnd hroom
    obtain ⟨hs1, he1, hl1, hh1, hc1, hm1⟩ :=
      ph_insert_step_notomb p.1 p.2 (hnn p.1) hnt hec
        (hdisj p.1 (by simp)) (by simp at hroom; omega)
    have hv1 : (ph_insert ht p.1 p.2).1.values.length = ht.values.length :=
      (ph_insert_fields ht p.1 p.2).2.2
    have hnd2 := hnd
    rw [List.map_cons, List.nodup_cons] at hnd2
    obtain ⟨hp1, hndrest⟩ := hnd2
    have ihres := ih (ph_insert ht p.1 p.2).1
      (by intro k; rw [hh1]; exact hnn k)
      (by
        intro s hs
        rcases hm1 s hs with h | h
        · rw [h]; simp
        · exact hnt s h)
      (by rw [he1, hec, hc1]; push_cast; ring)
      (by
        intro k hk hmem
        rcases hm1 _ hmem with h | h
        · have : k = p.1 := Slot.occ.inj h
          rw [this] at hk
          exact hp1 hk
        · exact hdisj k (by simp [hk]) h)
      hndrest
      (by rw [hc1, hl1]; simp at hroom; omega)
    obtain ⟨is1, ie1, il1, ih1, ic1, iv1, im1⟩ := ihres
    rw [insertAll_cons]
    refine ⟨by simp [hs1, is1], ?_, by rw [il1, hl1], by rw [ih1, hh1], ?_, by rw [iv1, hv1], ?_⟩
    · show (insertAll (ph_insert ht p.1 p.2).1 rest).1.entries = ht.entries + ((p :: rest).length : Int)
      rw [ie1, he1]
      simp only [List.length_cons]
      push_cast
      ring
    · show occCount (insertAll (ph_insert ht p.1 p.2).1 rest).1.keys =
        occCount ht.keys + (p :: rest).length
      rw [ic1, hc1]
      simp
      omega
    · intro s hs
      rcases im1 s hs with h | ⟨k, hk, hke⟩
      · rcases hm1 s h with h2 | h2
        · exact Or.inr ⟨p.1, by simp, h2⟩
        · exact Or.inl h2
      · exact Or.inr ⟨k, by simp [hk], hke⟩

theorem ph_insert_full_reject {K V : Type} [DecidableEq K] {ht : ProbingHashtable K V}
    (key : K) (value : V)
    (hall : ∀ s ∈ ht.keys, ∃ k2, s = Slot.occ k2)
    (habs : Slot.occ key ∉ ht.keys) :
    ph_insert ht key value = (ht, false) := by
  have hnone : probe ht.keys key (ht.hash key) false = none := by
    apply probe_eq_none_of_slots
    intro idx hidx
    obtain ⟨k2, hk2⟩ := hall _ (getD_mem ht.keys idx Slot.empty hidx)
    rw [hk2]
    simp only [isStop, decide_eq_false_iff_not]
    intro hc
    exact habs (hc ▸ (hk2 ▸ getD_mem ht.keys idx Slot.empty hidx))
  exact ph_insert_of_probe_none value hnone


theorem phInsertAt_keys_of_true {K V : Type} [DecidableEq K]
    (ht : ProbingHashtable K V) (key : K) (value : V) (idx : Nat)
    (hs : (phInsertAt ht key value idx).2 = true) :
    (phInsertAt ht key value idx).1.keys = ht.keys.set idx (Slot.occ key) := by
  by_cases h1 : ht.keys.getD idx Slot.empty ≠ Slot.occ key
  · by_cases h2 : ht.entries = (ht.keys.length : Int)
    · rw [phInsertAt_of_new_full value h1 h2] at hs
      cases hs
    · rw [phInsertAt_of_new_room value h1 h2]
  · push_neg at h1
    rw [phInsertAt_of_occ_self value h1]

/-! ## The claims -/

/-- C1: insert/lookup round trip for both tables.  For the chaining table
(capacity at least 1), immediately after `ch_insert t k v` a `ch_lookup t k`
returns `v`.  For the probing table (parallel arrays of equal length, hash
non-negative at the inserted key), whenever `ph_insert t k v` returns
`true`, a subsequent `ph_lookup t k` returns `v`. -/
theorem C1_insert_lookup_round_trip {K V K2 V2 : Type} [DecidableEq K]
    [DecidableEq K2] (ct : ChainingHashtable K V) (k : K) (v : V)
    (hcap : 0 < ct.arr.length) (pt : ProbingHashtable K2 V2) (k2 : K2) (v2 : V2)
    (hnn : 0 ≤ pt.hash k2) (hlenv : pt.values.length = pt.keys.length) :
    ch_lookup (ch_insert ct k v).1 k = some v ∧
    ((ph_insert pt k2 v2).2 = true →
      ph_lookup (ph_insert pt k2 v2).1 k2 = some v2) :=
  ⟨ch_insert_lookup ct k v hcap, fun hs => ph_insert_lookup pt k2 v2 hnn hlenv hs⟩

theorem C1_insert_lookup_round_trip_witness :
    ch_lookup (ch_insert (ch_empty 4 hash_id : ChainingHashtable Int Nat) 5 7).1 5 =
      some 7 ∧
    ph_lookup (ph_insert (ph_empty 3 hash_id : ProbingHashtable Int Nat) 3 9).1 3 =
      some 9 :=
  ⟨(C1_insert_lookup_round_trip (ch_empty 4 hash_id) 5 7 (by decide)
      (ph_empty 3 hash_id : ProbingHashtable Int Nat) 3 9 (by decide) (by decide)).1,
    (C1_insert_lookup_round_trip (ch_empty 4 hash_id : ChainingHashtable Int Nat) 5 7
      (by decide) (ph_empty 3 hash_id) 3 9 (by decide) (by decide)).2 (by decide)⟩

/-- C2 as stated is false on the code: on the capacity-3 table
`[Tombstone, occ 3, Empty]` (reached by insert 0, insert 3, delete 0 with
the identity hash), inserting key 6 makes the first probe stop at the
tombstone slot 0, and the confirmation re-probe returns slot 2 whose slot
is `Empty`, not the key; yet the code writes the new entry at slot 2,
leaving the tombstone at slot 0 unused — contradicting "the re-probe's
index replaces it only if that second probe finds the key itself;
otherwise the new entry is written at the Tombstone index". -/
theorem C2_counterexample :
    exTombEmptyTable.keys = [Slot.tomb, Slot.occ 3, Slot.empty] ∧
    probe exTombEmptyTable.keys 6 (exTombEmptyTable.hash 6) false = some 0 ∧
    exTombEmptyTable.keys.getD 0 Slot.empty = Slot.tomb ∧
    probe exTombEmptyTable.keys 6 ((0 : Nat) : Int) true = some 2 ∧
    exTombEmptyTable.keys.getD 2 Slot.empty = Slot.empty ∧
    (ph_insert exTombEmptyTable 6 12).2 = true ∧
    (ph_insert exTombEmptyTable 6 12).1.keys =
      [Slot.tomb, Slot.occ 3, Slot.occ 6] := by
  decide

/-- C2 amended: when the initial `ph_insert` probe (tombstones not
skipped) stops at a Tombstone slot, the confirmation re-probe's index
replaces it whenever that second probe finds any slot — the key itself or
an Empty slot — and the new entry is written at the Tombstone index only
when the second probe finds no slot at all; so a tombstone left by a
delete is reused by a later insert of a different key along the same
probe chain only when the re-probe terminates without finding an Empty
slot or the key. -/
theorem C2_amended_two_phase {K V : Type} [DecidableEq K]
    (ht : ProbingHashtable K V) (key : K) (value : V) (idx0 : Nat)
    (hp : probe ht.keys key (ht.hash key) false = some idx0)
    (htomb : ht.keys.getD idx0 Slot.empty = Slot.tomb) :
    (∀ j, probe ht.keys key (idx0 : Int) true = some j →
      (ph_insert ht key value).2 = true →
      (ph_insert ht key value).1.keys = ht.keys.set j (Slot.occ key)) ∧
    (probe ht.keys key (idx0 : Int) true = none →
      (ph_insert ht key value).2 = true →
      (ph_insert ht key value).1.keys = ht.keys.set idx0 (Slot.occ key)) := by
  constructor
  · intro j hq hs
    rw [ph_insert_of_probe_some value hp, phResolve_of_tomb_some htomb hq] at hs ⊢
    exact phInsertAt_keys_of_true ht key value j hs
  · intro hq hs
    rw [ph_insert_of_probe_some value hp, phResolve_of_tomb_none htomb hq] at hs ⊢
    exact phInsertAt_keys_of_true ht key value idx0 hs

theorem C2_amended_two_phase_witness :
    (ph_insert exTombOnlyTable 2 7).1.keys =
      exTombOnlyTable.keys.set 1 (Slot.occ 2) :=
  (C2_amended_two_phase exTombOnlyTable 2 7 0 (by decide) (by decide)).1
    1 (by decide) (by decide)

/-- C3: capacity exhaustion.  Starting from `ph_empty` with an everywhere
non-negative hash, inserting `capacity` pairwise-distinct keys succeeds
every time and fills the table (`entries = capacity`); a further insert of
a fresh distinct key returns `false` and leaves the table — keys array,
values array and `entries` — unchanged. -/
theorem C3_capacity_exhaustion {K V : Type} [DecidableEq K] (size : Nat)
    (hashf : HashFunction K) (hnn : ∀ k, 0 ≤ hashf k) (pairs : List (K × V))
    (hnd : (pairs.map Prod.fst).Nodup) (hlen : pairs.length = size)
    (k2 : K) (v2 : V) (hk2 : k2 ∉ pairs.map Prod.fst) :
    (insertAll (ph_empty size hashf) pairs).2 = true ∧
    (insertAll (ph_empty size hashf) pairs).1.entries = (size : Int) ∧
    ph_insert (insertAll (ph_empty size hashf) pairs).1 k2 v2 =
      ((insertAll (ph_empty size hashf) pairs).1, false) := by
  have hkeys : (ph_empty (V := V) size hashf).keys = List.replicate size Slot.empty := rfl
  obtain ⟨hs, he, hl, _, hc, _, hm⟩ := insertAll_filling pairs (ph_empty size hashf)
    (fun k => hnn k)
    (by
      intro s hsm
      rw [hkeys] at hsm
      rw [(List.mem_replicate.mp hsm).2]
      simp)
    (by simp [ph_empty, occCount, List.countP_replicate, occP])
    (by
      intro k _ hmem
      rw [hkeys] at hmem
      exact absurd (List.mem_replicate.mp hmem).2 (by simp))
    hnd
    (by
      rw [hkeys]
      simp [occCount, List.countP_replicate, occP, hlen])
  have hocc0 : occCount (ph_empty (V := V) size hashf).keys = 0 := by
    simp [ph_empty, occCount, List.countP_replicate, occP]
  have hlenk : (ph_empty (V := V) size hashf).keys.length = size := by
    simp [ph_empty]
  refine ⟨hs, by rw [he]; simp [ph_empty, hlen], ?_⟩
  apply ph_insert_full_reject
  · intro s hsm
    have hfull : List.countP occP (insertAll (ph_empty size hashf) pairs).1.keys =
        (insertAll (ph_empty size hashf) pairs).1.keys.length := by
      show occCount _ = _
      rw [hc, hl, hocc0, hlenk, hlen]
      omega
    have := List.countP_eq_length.mp hfull s hsm
    cases hcs : s with
    | empty => rw [hcs] at this; cases this
    | tomb => rw [hcs] at this; cases this
    | occ k3 => exact ⟨k3, rfl⟩
  · intro hmem
    rcases hm _ hmem with h | ⟨k3, hk3, hke⟩
    · rw [hkeys] at h
      exact absurd (List.mem_replicate.mp h).2 (by simp)
    · rw [Slot.occ.inj hke] at hk2
      exact hk2 hk3

theorem C3_capacity_exhaustion_witness :
    (insertAll (ph_empty 2 (fun n : Nat => (n : Int))) [(0, 10), (1, 11)]).2 = true ∧
    (insertAll (ph_empty 2 (fun n : Nat => (n : Int))) [(0, 10), (1, 11)]).1.entries =
      (2 : Int) ∧
    ph_insert (insertAll (ph_empty 2 (fun n : Nat => (n : Int)))
        [(0, 10), (1, 11)]).1 5 55 =
      ((insertAll (ph_empty 2 (fun n : Nat => (n : Int))) [(0, 10), (1, 11)]).1,
        false) :=
  C3_capacity_exhaustion (K := Nat) (V := Nat) 2 (fun n => (n : Int))
    (fun k => Int.natCast_nonneg k)
    [(0, 10), (1, 11)] (by decide) rfl 5 55 (by decide)

/-- C4: `ph_delete` semantics and atomicity (non-negative hash).  If the
skip-tombstone probe from `hash(k)` finds a slot occupied by `k`, the
delete returns the parallel stored value, tombstones the key slot, clears
the value slot and decrements `entries` by one; if the probe fails or
stops at an Empty slot (the key is absent), it returns `none` and the
table is unchanged. -/
theorem C4_delete_semantics {K V : Type} [DecidableEq K]
    (ht : ProbingHashtable K V) (key : K) (_hnn : 0 ≤ ht.hash key) :
    (∀ idx, probe ht.keys key (ht.hash key) true = some idx →
      ht.keys.getD idx Slot.empty = Slot.occ key →
      ph_delete ht key =
        (⟨ht.keys.set idx Slot.tomb, ht.values.set idx none,
          ht.hash, ht.entries - 1⟩, ht.values.getD idx none)) ∧
    (∀ idx, probe ht.keys key (ht.hash key) true = some idx →
      ht.keys.getD idx Slot.empty = Slot.empty →
      ph_delete ht key = (ht, none)) ∧
    (probe ht.keys key (ht.hash key) true = none →
      ph_delete ht key = (ht, none)) := by
  refine ⟨?_, ?_, ?_⟩
  · intro idx hp hocc
    exact ph_delete_of_probe_hit hp (by rw [hocc]; simp)
  · intro idx hp hempty
    exact ph_delete_of_probe_empty hp hempty
  · intro hp
    exact ph_delete_of_probe_none hp

theorem C4_delete_semantics_witness :
    ph_delete exOneKeyTable 0 =
      (⟨exOneKeyTable.keys.set 0 Slot.tomb, exOneKeyTable.values.set 0 none,
        exOneKeyTable.hash, exOneKeyTable.entries - 1⟩,
        exOneKeyTable.values.getD 0 none) :=
  (C4_delete_semantics exOneKeyTable 0 (by decide)).1 0 (by decide) (by decide)

/-- C5: state invariants of the probing table.  Every table reachable from
`ph_empty` by `ph_insert`/`ph_delete` calls, with an everywhere
non-negative hash, has `entries` equal to the number of slots holding a
key, and no key occupying more than one slot. -/
theorem C5_state_invariants {K V : Type} [DecidableEq K]
    {ht : ProbingHashtable K V} (hr : Reachable ht) (hnn : ∀ k, 0 ≤ ht.hash k) :
    ht.entries = (occCount ht.keys : Int) ∧ ∀ k, keyCount ht.keys k ≤ 1 :=
  ⟨(reachable_wf hr hnn).ecount, (reachable_wf hr hnn).dup⟩

theorem C5_state_invariants_witness :
    exReachedTable.entries = (occCount exReachedTable.keys : Int) ∧
    keyCount exReachedTable.keys 0 ≤ 1 ∧ keyCount exReachedTable.keys 1 ≤ 1 := by
  have hh : exReachedTable.hash = (fun n : Nat => (n : Int)) := by
    unfold exReachedTable
    rw [(ph_delete_fields _ _).1, (ph_insert_fields _ _ _).1,
      (ph_insert_fields _ _ _).1]
    rfl
  have hc := @C5_state_invariants Nat Nat _ exReachedTable
    (Reachable.delete _ 0 (Reachable.insert _ 1 2
      (Reachable.insert _ 0 1 (Reachable.empty 3 _))))
    (by
      simp only [hh]
      exact fun k => Int.natCast_nonneg k)
  exact ⟨hc.1, hc.2 0, hc.2 1⟩

/-- C6: chaining insert semantics (capacity at least 1).  `ch_insert`
works in the bucket at index `mod(hash k, capacity)`: it returns whether
the key already existed; when the key is new it prepends the pair to that
bucket; when the key exists it rebuilds the bucket replacing only the
matching pair's value — in particular the bucket's key sequence (hence
relative order) is unchanged and the new value is found by a scan. -/
theorem C6_ch_insert_semantics {K V : Type} [DecidableEq K]
    (t : ChainingHashtable K V) (key : K) (value : V) (hcap : 0 < t.arr.length) :
    ((ch_insert t key value).2 =
      (scan (t.arr.getD (chIndex t key) []) key).isSome) ∧
    (scan (t.arr.getD (chIndex t key) []) key = none →
      (ch_insert t key value).1.arr =
        t.arr.set (chIndex t key)
          ((key, value) :: t.arr.getD (chIndex t key) [])) ∧
    (∀ v0, scan (t.arr.getD (chIndex t key) []) key = some v0 →
      (ch_insert t key value).1.arr =
        t.arr.set (chIndex t key)
          ((t.arr.getD (chIndex t key) []).map fun kv =>
            if key = kv.1 then (key, value) else kv) ∧
      ((ch_insert t key value).1.arr.getD (chIndex t key) []).map Prod.fst =
        (t.arr.getD (chIndex t key) []).map Prod.fst ∧
      scan ((ch_insert t key value).1.arr.getD (chIndex t key) []) key =
        some value) := by
  have hidx : chIndex t key < t.arr.length := chIndex_lt t key hcap
  rw [ch_insert_eq]
  cases hscan : scan (t.arr.getD (chIndex t key) []) key with
  | none =>
    refine ⟨rfl, fun _ => rfl, fun v0 hv => absurd hv (by simp)⟩
  | some v0 =>
    refine ⟨rfl, fun hc => absurd hc (by simp), fun v1 hv => ⟨rfl, ?_, ?_⟩⟩
    · show ((t.arr.set (chIndex t key) _).getD (chIndex t key) []).map Prod.fst = _
      rw [getD_set_self _ _ _ _ hidx]
      exact map_fst_map_replace _ key value
    · show scan ((t.arr.set (chIndex t key) _).getD (chIndex t key) []) key = _
      rw [getD_set_self _ _ _ _ hidx]
      exact scan_map_replace _ key value v0 hscan

theorem C6_ch_insert_semantics_witness :
    (ch_insert exChainTable 5 2).2 =
      (scan (exChainTable.arr.getD (chIndex exChainTable 5) []) 5).isSome ∧
    scan ((ch_insert exChainTable 5 2).1.arr.getD (chIndex exChainTable 5) []) 5 =
      some 2 :=
  ⟨(C6_ch_insert_semantics exChainTable 5 2 (by decide)).1,
    ((C6_ch_insert_semantics exChainTable 5 2 (by decide)).2.2 1 (by decide)).2.2⟩

/-- C7: `keys` returns exactly the live keys.  For the chaining table,
`ch_keys` contains a key exactly when some bucket holds a pair with that
key (set equality with the live key set); for the probing table,
`ph_keys` is, in array-index order, exactly the keys of the slots that
are neither Empty nor Tombstone. -/
theorem C7_keys_exact {K V : Type} (ct : ChainingHashtable K V)
    (pt : ProbingHashtable K V) :
    (∀ k, k ∈ ch_keys ct ↔ ∃ b, b ∈ ct.arr ∧ ∃ v, (k, v) ∈ b) ∧
    ph_keys pt = pt.keys.filterMap (fun s => match s with
      | Slot.occ k => some k
      | Slot.empty => none
      | Slot.tomb => none) := by
  constructor
  · intro k
    rw [ch_keys_eq]
    constructor
    · intro h
      obtain ⟨p, hp, he⟩ := List.mem_map.mp h
      obtain ⟨b, hb, hpb⟩ := List.mem_flatten.mp hp
      refine ⟨b, hb, p.2, ?_⟩
      rw [← he, Prod.mk.eta]
      exact hpb
    · rintro ⟨b, hb, v, hkv⟩
      exact List.mem_map.mpr ⟨(k, v), List.mem_flatten.mpr ⟨b, hb, hkv⟩, rfl⟩
  · rw [ph_keys_eq, filterNulls_eq_filterMap]

/-- C8: the sign-correcting modulus and its use.  For every integer `n`
and positive modulus `m`, `mod n m = ((n % m) + m) % m` (JavaScript `%`)
lies in `[0, m)` even for negative `n`; and `mod(hash key, capacity)` is
the bucket index used by the chaining operations: it is in range,
`ch_lookup` scans exactly that bucket, and `ch_insert`/`ch_delete` leave
every other bucket untouched. -/
theorem C8_mod_and_bucket_index {K V : Type} [DecidableEq K] (n m : Int)
    (hm : 0 < m) (t : ChainingHashtable K V) (key : K) (value : V)
    (hcap : 0 < t.arr.length) :
    mod n m = (Int.tmod n m + m).tmod m ∧
    0 ≤ mod n m ∧ mod n m < m ∧
    chIndex t key = (mod (t.hash key) (t.arr.length : Int)).toNat ∧
    chIndex t key < t.arr.length ∧
    ch_lookup t key = scan (t.arr.getD (chIndex t key) []) key ∧
    (∀ j, j ≠ chIndex t key →
      (ch_insert t key value).1.arr.getD j [] = t.arr.getD j [] ∧
      (ch_delete t key).1.arr.getD j [] = t.arr.getD j []) := by
  refine ⟨rfl, mod_nonneg n m hm, mod_lt n m hm, rfl, chIndex_lt t key hcap,
    rfl, ?_⟩
  intro j hj
  constructor
  · rw [ch_insert_eq]
    cases scan (t.arr.getD (chIndex t key) []) key with
    | none => exact getD_set_ne _ _ _ _ _ fun hh => hj hh.symm
    | some v0 => exact getD_set_ne _ _ _ _ _ fun hh => hj hh.symm
  · rw [ch_delete_eq]
    cases scan (t.arr.getD (chIndex t key) []) key with
    | none => rfl
    | some v0 => exact getD_set_ne _ _ _ _ _ fun hh => hj hh.symm

theorem C8_mod_and_bucket_index_witness :
    mod (-7) 3 = (Int.tmod (-7) 3 + 3).tmod 3 ∧
    0 ≤ mod (-7) 3 ∧ mod (-7) 3 < 3 ∧
    chIndex (ch_empty 4 hash_id : ChainingHashtable Int Nat) (-5) =
      (mod (hash_id (-5)) 4).toNat ∧
    (ch_insert (ch_empty 4 hash_id : ChainingHashtable Int Nat) (-5) 9).1.arr.getD 0 [] =
      (ch_empty 4 hash_id : ChainingHashtable Int Nat).arr.getD 0 [] :=
  ⟨(C8_mod_and_bucket_index (-7) 3 (by decide)
      (ch_empty 4 hash_id : ChainingHashtable Int Nat) (-5) 9 (by decide)).1,
    (C8_mod_and_bucket_index (-7) 3 (by decide)
      (ch_empty 4 hash_id : ChainingHashtable Int Nat) (-5) 9 (by decide)).2.1,
    (C8_mod_and_bucket_index (-7) 3 (by decide)
      (ch_empty 4 hash_id : ChainingHashtable Int Nat) (-5) 9 (by decide)).2.2.1,
    (C8_mod_and_bucket_index (-7) 3 (by decide)
      (ch_empty 4 hash_id : ChainingHashtable Int Nat) (-5) 9 (by decide)).2.2.2.1,
    ((C8_mod_and_bucket_index (-7) 3 (by decide)
      (ch_empty 4 hash_id : ChainingHashtable Int Nat) (-5) 9 (by decide)).2.2.2.2.2.2
      0 (by decide)).1⟩

/-- C9 (implicit): `ph_insert` of a key already present in a reachable
table (everywhere non-negative hash) returns `true`, overwrites the
value (a following lookup finds the new value), and leaves `entries` and
the key array unchanged — even when `entries = capacity`: the fullness
check rejects only keys not already present. -/
theorem C9_insert_existing_key {K V : Type} [DecidableEq K]
    {ht : ProbingHashtable K V} (key : K) (value : V) (hr : Reachable ht)
    (hnn : ∀ k, 0 ≤ ht.hash k) (hocc : Slot.occ key ∈ ht.keys) :
    (ph_insert ht key value).2 = true ∧
    (ph_insert ht key value).1.entries = ht.entries ∧
    (ph_insert ht key value).1.keys = ht.keys ∧
    ph_lookup (ph_insert ht key value).1 key = some value := by
  have hw := reachable_wf hr hnn
  rcases ph_insert_main ht key value (hnn key) with ⟨_, _, hno⟩ |
    ⟨t, idx, htl, hidx, hbef, hcase⟩
  · exact absurd hocc hno
  · have hlen : 0 < ht.keys.length := by omega
    have hidxlt : idx < ht.keys.length := by
      rw [hidx]
      exact pstep_lt _ _ _ hlen
    rcases hcase with ⟨hoccidx, heq⟩ | ⟨_, hnotin, _⟩
    · have hkeq : ht.keys.set idx (Slot.occ key) = ht.keys :=
        set_getD_self _ _ _ _ hoccidx
      have hlook := ph_insert_lookup ht key value (hnn key) hw.lenv (by rw [heq])
      rw [heq] at hlook ⊢
      exact ⟨rfl, rfl, hkeq, hlook⟩
    · exact absurd hocc (hnotin hw.reach)

theorem C9_insert_existing_key_witness :
    (ph_insert exFullOneTable 0 7).2 = true ∧
    (ph_insert exFullOneTable 0 7).1.entries = exFullOneTable.entries ∧
    (ph_insert exFullOneTable 0 7).1.keys = exFullOneTable.keys ∧
    ph_lookup (ph_insert exFullOneTable 0 7).1 0 = some 7 := by
  have hh : exFullOneTable.hash = (fun n : Nat => (n : Int)) := by
    unfold exFullOneTable
    rw [(ph_insert_fields _ _ _).1]
    rfl
  exact C9_insert_existing_key 0 7
    (Reachable.insert _ 0 5 (Reachable.empty 1 _))
    (by
      simp only [hh]
      exact fun k => Int.natCast_nonneg k)
    (by decide)

/-- C10 (implicit): probe index safety (capacity at least 1, non-negative
hash).  Every slot index the probe loop examines (`probeIdx`) is in
`[0, capacity)`; any index the probe returns — and hence every index used
by `ph_lookup`, `ph_insert` and `ph_delete`, which consume probe results —
is below the capacity; and `probe` is exactly the loop `probeGo` run for
at most `keys.length` iterations. -/
theorem C10_probe_bounds {K : Type} [DecidableEq K] (keys : List (Slot K))
    (key : K) (hash : Int) (skip : Bool) (hnn : 0 ≤ hash)
    (hcap : 0 < keys.length) :
    (∀ j, probeIdx keys hash j < keys.length) ∧
    (∀ idx, probe keys key hash skip = some idx → idx < keys.length) ∧
    probe keys key hash skip = probeGo keys key hash skip 0 keys.length := by
  refine ⟨fun j => probeIdx_lt keys hash j hcap, ?_, rfl⟩
  intro idx hp
  obtain ⟨t, ht, hidx, _, _⟩ := probe_eq_some_pstep hnn hp
  rw [hidx]
  exact pstep_lt _ _ _ hcap

theorem C10_probe_bounds_witness :
    probeIdx [Slot.occ (1 : Int), Slot.empty] 7 3 <
      ([Slot.occ (1 : Int), Slot.empty] : List (Slot Int)).length ∧
    1 < ([Slot.occ (1 : Int), Slot.empty] : List (Slot Int)).length :=
  ⟨(C10_probe_bounds [Slot.occ (1 : Int), Slot.empty] 5 7 true (by decide)
      (by decide)).1 3,
    (C10_probe_bounds [Slot.occ (1 : Int), Slot.empty] 5 7 true (by decide)
      (by decide)).2.1 1 (by decide)⟩

end Hashtables
